import Mathlib

/-!
Verification of the expression-evaluation engine in `src/main.rs`
(tokenizer, shunting-yard infix-to-RPN conversion, stack-machine
evaluation).  Rust `f64` values are modeled as exact rationals (`ℚ`):
every numeric literal and every arithmetic step appearing in the
properties below is exactly representable, so the rational semantics
coincides with the source's on them.  Rust `Vec` stacks are modeled as
Lean lists with the head as the stack top.
-/

/-- The `Operator` enum from the source: `Add`, `Subtract`, `Multiply`,
`Divide`. -/
inductive Operator where
  | add
  | subtract
  | multiply
  | divide
deriving DecidableEq

/-- `Operator::precedence`: 1 for `Add`/`Subtract`, 2 for
`Multiply`/`Divide`.  The source returns a `u8`; the values 1 and 2 are
far from overflow, so `ℕ` is used. -/
def Operator.precedence : Operator → ℕ
  | .add => 1
  | .subtract => 1
  | .multiply => 2
  | .divide => 2

/-- The `Error` enum from the source. -/
inductive Error where
  | badToken (c : Char)
  | mismatchedParens
  | divisionByZero
  | invalidExpression
deriving DecidableEq

/-- `Operator::apply`: performs the arithmetic, failing with
`DivisionByZero` exactly when the operator is `Divide` and the right
operand equals zero. -/
def Operator.apply (o : Operator) (left right : ℚ) : Except Error ℚ :=
  match o with
  | .add => .ok (left + right)
  | .subtract => .ok (left - right)
  | .multiply => .ok (left * right)
  | .divide => if right = 0 then .error .divisionByZero else .ok (left / right)

/-- The `Token` enum from the source: `Number(f64)`, `Op(Operator)`,
`Bracket(char)`. -/
inductive Token where
  | number (q : ℚ)
  | op (o : Operator)
  | bracket (c : Char)
deriving DecidableEq

/-- Characters consumed by the tokenizer's number scanner:
`chars[j].is_ascii_digit() || chars[j] == '.'`. -/
def isNumChar (c : Char) : Bool := c.isDigit || c == '.'

/-- Value of a list of ASCII digits read in base 10. -/
def digitsToNat (ds : List Char) : ℕ :=
  ds.foldl (fun a c => 10 * a + (c.toNat - 48)) 0

/-- Exact rational value of a digits-and-dot run (integer part plus
fractional part), used when the run is a valid decimal literal. -/
def runValue (s : List Char) : ℚ :=
  let ip := s.takeWhile (fun c => ¬ (c = '.'))
  let fp := (s.dropWhile (fun c => ¬ (c = '.'))).drop 1
  (digitsToNat ip : ℚ) + (digitsToNat fp : ℚ) / 10 ^ fp.length

/-- Model of Rust's `str::parse::<f64>` restricted to the
digits-and-dot runs the tokenizer feeds it: such a run is a valid
number exactly when it contains at most one `'.'` and at least one
digit (covering forms like `12`, `3.5`, `7.`, `.5`; rejecting `"."`,
`"1.2.3"`, ...), and its value is the exact decimal value. -/
def parseNumRun (s : List Char) : Option ℚ :=
  if s.all isNumChar ∧ s.count '.' ≤ 1 ∧ s.any Char.isDigit then
    some (runValue s)
  else
    none

/-- Prepend a token to the result of the rest of the scan, propagating
errors (direct-style equivalent of the source's `tokens.push(...)`
accumulation). -/
def consTok (t : Token) : Except Error (List Token) → Except Error (List Token)
  | .ok ts => .ok (t :: ts)
  | .error e => .error e

/-- The scanning loop of `Calculator::parse`.  First argument: the
remaining characters; second: the paren-tracking stack `parens`.
Branches mirror the source's `match c` arms in order: digit (greedy
digits-and-dot run, `BadToken(c)` if the run does not parse), `'('`
(emit and push), `')'` (emit and pop, `MismatchedParens` on empty stack
or non-`'('` entry), the four operators, whitespace (skip), catch-all
`BadToken(c)`; after the scan, `MismatchedParens` if opens remain. -/
def parseGo : List Char → List Char → Except Error (List Token)
  | [], parens => if parens = [] then .ok [] else .error .mismatchedParens
  | c :: cs, parens =>
    if c.isDigit then
      (parseNumRun (c :: cs.takeWhile isNumChar)).elim (.error (.badToken c))
        (fun q => consTok (.number q) (parseGo (cs.dropWhile isNumChar) parens))
    else if c = '(' then consTok (.bracket '(') (parseGo cs ('(' :: parens))
    else if c = ')' then
      parens.head?.elim (.error .mismatchedParens)
        (fun p =>
          if p = '(' then consTok (.bracket ')') (parseGo cs parens.tail)
          else .error .mismatchedParens)
    else if c = '+' then consTok (.op .add) (parseGo cs parens)
    else if c = '-' then consTok (.op .subtract) (parseGo cs parens)
    else if c = '*' then consTok (.op .multiply) (parseGo cs parens)
    else if c = '/' then consTok (.op .divide) (parseGo cs parens)
    else if c = ' ' ∨ c = '\t' ∨ c = '\n' then parseGo cs parens
    else .error (.badToken c)
termination_by cs _ => cs.length
decreasing_by
  all_goals simp only [List.length_cons]
  · exact Nat.lt_succ_of_le (List.dropWhile_suffix isNumChar).length_le
  all_goals exact Nat.lt_succ_self _

/-- `Calculator::parse`. -/
def parse (s : String) : Except Error (List Token) := parseGo s.data []

/-- The inner `while let Some(Token::Op(stack_op)) = stack.last()` loop
of `to_postfix`: pop operators whose precedence is `>=` the incoming
operator's (the `stack_op >= op` comparison goes through
`precedence()`), returning the popped run and the remaining stack. -/
def popGE (o : Operator) : List Token → List Token × List Token
  | Token.op top :: rest =>
    if o.precedence ≤ top.precedence then
      (Token.op top :: (popGE o rest).1, (popGE o rest).2)
    else ([], Token.op top :: rest)
  | s => ([], s)

/-- The `Token::Bracket(')')` arm of `to_postfix`: pop tokens to the
output until the top is `'('`, then pop (and discard) once more; on an
emptied stack the final pop is a no-op (Rust's `Vec::pop` returns
`None`). -/
def popToParen : List Token → List Token × List Token
  | [] => ([], [])
  | t :: rest =>
    if t = Token.bracket '(' then ([], rest)
    else (t :: (popToParen rest).1, (popToParen rest).2)

/-- The main loop of `Calculator::to_postfix` (the source reverses the
input and pops, i.e. processes tokens in original order).  First
argument: remaining input tokens; second: the operator stack.  At the
end the whole operator stack is flushed to the output. -/
def toPostfixGo : List Token → List Token → List Token
  | [], stack => stack
  | Token.number n :: ts, stack => Token.number n :: toPostfixGo ts stack
  | Token.op o :: ts, stack =>
    (popGE o stack).1 ++ toPostfixGo ts (Token.op o :: (popGE o stack).2)
  | Token.bracket c :: ts, stack =>
    if c = '(' then toPostfixGo ts (Token.bracket '(' :: stack)
    else if c = ')' then (popToParen stack).1 ++ toPostfixGo ts (popToParen stack).2
    else toPostfixGo ts stack

/-- `Calculator::to_postfix`. -/
def to_postfix (ts : List Token) : List Token := toPostfixGo ts []

/-- The loop of `Calculator::evaluate`.  Second argument: the operand
stack.  An operator with fewer than two operands, or any bracket token,
is `InvalidExpression`; `op.apply(left, right)` errors propagate; after
the loop the stack must hold exactly one value. -/
def evaluateGo : List Token → List ℚ → Except Error ℚ
  | [], [v] => .ok v
  | [], _ => .error .invalidExpression
  | Token.number n :: ts, stack => evaluateGo ts (n :: stack)
  | Token.op o :: ts, right :: left :: stack =>
    match o.apply left right with
    | .ok v => evaluateGo ts (v :: stack)
    | .error e => .error e
  | Token.op _ :: _, _ => .error .invalidExpression
  | Token.bracket _ :: _, _ => .error .invalidExpression

/-- `Calculator::evaluate`. -/
def evaluate (ts : List Token) : Except Error ℚ := evaluateGo ts []

/-- `Calculator::calculate`: parse, convert, evaluate, short-circuiting
on the first failure. -/
def calculate (s : String) : Except Error ℚ :=
  match parse s with
  | .ok ts => evaluate ( to_postfix ts)
  | .error e => .error e

instance {ε α : Type} [DecidableEq ε] [DecidableEq α] : DecidableEq (Except ε α)
  | .ok x, .ok y =>
    if h : x = y then .isTrue (by rw [h]) else .isFalse (fun hh => h (Except.ok.inj hh))
  | .ok _, .error _ => .isFalse (fun hh => Except.noConfusion hh)
  | .error _, .ok _ => .isFalse (fun hh => Except.noConfusion hh)
  | .error e, .error f =>
    if h : e = f then .isTrue (by rw [h]) else .isFalse (fun hh => h (Except.error.inj hh))

/-- Fuel-indexed mirror of `parseGo`, structurally recursive in the
fuel so that the kernel can evaluate it on closed inputs; it agrees
with `parseGo` whenever the fuel exceeds the input length
(`parseGo_eq_fueled`). -/
def parseGoF : ℕ → List Char → List Char → Except Error (List Token)
  | 0, _, _ => .error .invalidExpression
  | _ + 1, [], parens => if parens = [] then .ok [] else .error .mismatchedParens
  | fuel + 1, c :: cs, parens =>
    if c.isDigit then
      (parseNumRun (c :: cs.takeWhile isNumChar)).elim (.error (.badToken c))
        (fun q => consTok (.number q) (parseGoF fuel (cs.dropWhile isNumChar) parens))
    else if c = '(' then consTok (.bracket '(') (parseGoF fuel cs ('(' :: parens))
    else if c = ')' then
      parens.head?.elim (.error .mismatchedParens)
        (fun p =>
          if p = '(' then consTok (.bracket ')') (parseGoF fuel cs parens.tail)
          else .error .mismatchedParens)
    else if c = '+' then consTok (.op .add) (parseGoF fuel cs parens)
    else if c = '-' then consTok (.op .subtract) (parseGoF fuel cs parens)
    else if c = '*' then consTok (.op .multiply) (parseGoF fuel cs parens)
    else if c = '/' then consTok (.op .divide) (parseGoF fuel cs parens)
    else if c = ' ' ∨ c = '\t' ∨ c = '\n' then parseGoF fuel cs parens
    else .error (.badToken c)

/-- Kernel-computable form of `calculate`, used to evaluate concrete
examples (`calculate_eq_fueled`). -/
def calculateF (s : String) : Except Error ℚ :=
  match parseGoF (s.data.length + 1) s.data [] with
  | .ok ts => evaluate ( to_postfix ts)
  | .error e => .error e

/-- Abstract syntax of arithmetic expressions: the "mathematically
correct value under standard precedence" of claim C1 is defined by
evaluating this tree (`evalExpr`), and a tree is rendered to the
infix token sequence the claim talks about by `tokensAt`. -/
inductive Expr where
  | num (q : ℚ)
  | binop (o : Operator) (l r : Expr)
  | paren (e : Expr)

/-- Reverse-Polish form of an expression tree (explicit redundant
parentheses leave no trace in postfix form). -/
def postE : Expr → List Token
  | .num q => [Token.number q]
  | .binop o l r => postE l ++ postE r ++ [Token.op o]
  | .paren e => postE e

/-- Mathematical value of an expression tree: left subtree first, then
right subtree, then the operator, with `DivisionByZero` on a zero right
operand of a division. -/
def evalExpr : Expr → Except Error ℚ
  | .num q => .ok q
  | .binop o l r =>
    match evalExpr l with
    | .error e => .error e
    | .ok x =>
      match evalExpr r with
      | .error e => .error e
      | .ok y => o.apply x y
  | .paren e => evalExpr e

/-- Infix token rendering of an expression tree in a context requiring
binding strength at least `lvl` (1 = top level): parentheses are
inserted exactly when the node's operator binds looser than the
context, left children render at the operator's own level and right
children one higher, so equal-precedence operators group
left-associatively; a `paren` node renders as explicit (possibly
redundant) parentheses.  The valid infix expressions of claim C1 are
exactly the renderings `tokensAt e 1`. -/
def tokensAt : Expr → ℕ → List Token
  | .num q, _ => [Token.number q]
  | .binop o l r, lvl =>
    if o.precedence < lvl then
      (Token.bracket '(' ::
        (tokensAt l o.precedence ++ Token.op o :: tokensAt r (o.precedence + 1))) ++
        [Token.bracket ')']
    else
      tokensAt l o.precedence ++ Token.op o :: tokensAt r (o.precedence + 1)
  | .paren e, _ => Token.bracket '(' :: (tokensAt e 1 ++ [Token.bracket ')'])

/-- Tokens kept on the operator stack by the `stack_op >= op`
comparison: operators whose precedence is at least `o`'s. -/
def opGE (o : Operator) : Token → Bool
  | Token.op top => o.precedence ≤ top.precedence
  | _ => false

/-- Paren-balance projection of the scan of `parseGo`, tracking only
the depth of the paren stack: `true` exactly when the scan runs into a
`')'` at depth zero or finishes at positive depth (and is not aborted
earlier by an unparsable run or an unrecognized character). -/
def parenScan : List Char → ℕ → Bool
  | [], d => d != 0
  | c :: cs, d =>
    if c.isDigit then
      (parseNumRun (c :: cs.takeWhile isNumChar)).elim false
        (fun _ => parenScan (cs.dropWhile isNumChar) d)
    else if c = '(' then parenScan cs (d + 1)
    else if c = ')' then
      if d = 0 then true else parenScan cs (d - 1)
    else if c = '+' ∨ c = '-' ∨ c = '*' ∨ c = '/' ∨ c = ' ' ∨ c = '\t' ∨ c = '\n' then
      parenScan cs d
    else false
termination_by cs _ => cs.length
decreasing_by
  all_goals simp only [List.length_cons]
  · exact Nat.lt_succ_of_le (List.dropWhile_suffix isNumChar).length_le
  all_goals exact Nat.lt_succ_self _

/-- Stacks whose top does not hold an operator of precedence `≥ lvl`
(invariant used in the shunting-yard correctness proof). -/
def StackOk (lvl : ℕ) : List Token → Prop
  | [] => True
  | t :: _ => ∀ o : Operator, t = Token.op o → o.precedence < lvl

/-- Continuations that immediately flush every pending operator of
precedence `≥ lvl`: the end of input, a closing bracket, or an
operator binding no tighter than `lvl`. -/
def RestOk (lvl : ℕ) (rest : List Token) : Prop :=
  rest = [] ∨ (∃ r, rest = Token.bracket ')' :: r) ∨
    ∃ o r, rest = Token.op o :: r ∧ o.precedence ≤ lvl

theorem parseGo_eq_fueled :
    ∀ (fuel : ℕ) (cs parens : List Char), cs.length < fuel →
      parseGo cs parens = parseGoF fuel cs parens := by
  intro fuel
  induction fuel with
  | zero => intro cs parens h; omega
  | succ n ih =>
    intro cs parens h
    cases cs with
    | nil => simp [parseGo, parseGoF]
    | cons c cs =>
      have hlen : cs.length < n := by simpa using h
      have hdrop : (cs.dropWhile isNumChar).length < n :=
        lt_of_le_of_lt (List.dropWhile_suffix isNumChar).length_le hlen
      rw [parseGo.eq_def, parseGoF.eq_def]
      simp only [ih _ _ hdrop, ih _ _ hlen]

theorem calculate_eq_fueled (s : String) : calculate s = calculateF s := by
  unfold calculate calculateF parse
  rw [parseGo_eq_fueled _ _ _ (Nat.lt_succ_self _)]

theorem consTok_error_iff (t : Token) (x : Except Error (List Token)) (e : Error) :
    consTok t x = .error e ↔ x = .error e := by
  cases x <;> simp [consTok]

theorem popGE_take_drop (o : Operator) (s : List Token) :
    popGE o s = (s.takeWhile (opGE o), s.dropWhile (opGE o)) := by
  induction s with
  | nil => rfl
  | cons t s ih =>
    cases t with
    | number n => simp [popGE, opGE, List.takeWhile_cons, List.dropWhile_cons]
    | bracket c => simp [popGE, opGE, List.takeWhile_cons, List.dropWhile_cons]
    | op top =>
      by_cases h : o.precedence ≤ top.precedence <;>
        simp [popGE, opGE, List.takeWhile_cons, List.dropWhile_cons, h, ih]

theorem popGE_eq_of_stackOk (o : Operator) (s : List Token)
    (h : StackOk o.precedence s) : popGE o s = ([], s) := by
  cases s with
  | nil => rfl
  | cons t s =>
    cases t with
    | number n => rfl
    | bracket c => rfl
    | op top =>
      have := h top rfl
      simp [popGE, Nat.not_le.mpr this]

theorem popGE_length (o : Operator) (s : List Token) :
    (popGE o s).1.length + (popGE o s).2.length = s.length := by
  rw [popGE_take_drop]
  have h := congrArg List.length (List.takeWhile_append_dropWhile (opGE o) s)
  rw [List.length_append] at h
  exact h

theorem popToParen_cons_ne (t : Token) (s : List Token) (h : ¬ t = Token.bracket '(') :
    popToParen (t :: s) = (t :: (popToParen s).1, (popToParen s).2) := by
  simp [popToParen, h]

theorem popToParen_length (s : List Token) :
    (popToParen s).1.length + (popToParen s).2.length ≤ s.length := by
  induction s with
  | nil => simp [popToParen]
  | cons t s ih =>
    by_cases h : t = Token.bracket '('
    · simp [popToParen, h]
    · simp only [popToParen_cons_ne _ _ h, List.length_cons]
      omega

theorem stackOk_mono {lvl lvl' : ℕ} {s : List Token} (hle : lvl ≤ lvl')
    (h : StackOk lvl s) : StackOk lvl' s := by
  cases s with
  | nil => trivial
  | cons t s => intro o ho; exact lt_of_lt_of_le (h o ho) hle

theorem restOk_mono {lvl lvl' : ℕ} {rest : List Token} (hle : lvl ≤ lvl')
    (h : RestOk lvl rest) : RestOk lvl' rest := by
  rcases h with h | h | ⟨o, r, hr, ho⟩
  · exact Or.inl h
  · exact Or.inr (Or.inl h)
  · exact Or.inr (Or.inr ⟨o, r, hr, le_trans ho hle⟩)

theorem flush_op (rest : List Token) (o : Operator) (s : List Token)
    (h : RestOk o.precedence rest) :
    toPostfixGo rest (Token.op o :: s) = Token.op o :: toPostfixGo rest s := by
  rcases h with h | ⟨r, hr⟩ | ⟨o', r, hr, ho'⟩
  · subst h; rfl
  · subst hr
    rw [toPostfixGo, toPostfixGo]
    rw [popToParen_cons_ne _ _ (by simp)]
    simp
  · subst hr
    rw [toPostfixGo, toPostfixGo]
    simp [popGE, ho']

theorem go_tokensAt (e : Expr) :
    ∀ (lvl : ℕ) (s rest : List Token), StackOk lvl s → RestOk lvl rest →
      toPostfixGo (tokensAt e lvl ++ rest) s = postE e ++ toPostfixGo rest s := by
  induction e with
  | num q =>
    intro lvl s rest hs hr
    simp [tokensAt, postE, toPostfixGo]
  | binop o l r ihl ihr =>
    intro lvl s rest hs hr
    have core : ∀ (s₂ rest₂ : List Token),
        StackOk o.precedence s₂ → RestOk o.precedence rest₂ →
        toPostfixGo
            (tokensAt l o.precedence ++
              (Token.op o :: (tokensAt r (o.precedence + 1) ++ rest₂))) s₂
          = postE l ++ (postE r ++ (Token.op o :: toPostfixGo rest₂ s₂)) := by
      intro s₂ rest₂ hs₂ hr₂
      rw [ihl o.precedence s₂ _ hs₂ (Or.inr (Or.inr ⟨o, _, rfl, le_refl _⟩))]
      rw [toPostfixGo]
      rw [popGE_eq_of_stackOk o s₂ hs₂]
      have hstack : StackOk (o.precedence + 1) (Token.op o :: s₂) := by
        intro o' ho'
        cases ho'
        exact Nat.lt_succ_self _
      rw [ihr (o.precedence + 1) (Token.op o :: s₂) rest₂ hstack
        (restOk_mono (Nat.le_succ _) hr₂)]
      rw [flush_op rest₂ o s₂ hr₂]
      simp
    by_cases h : o.precedence < lvl
    · rw [tokensAt]
      rw [if_pos h]
      simp only [List.cons_append, List.append_assoc, List.singleton_append,
        List.nil_append]
      rw [toPostfixGo]
      rw [if_pos rfl]
      have hs₂ : StackOk o.precedence (Token.bracket '(' :: s) := by
        intro o' ho'
        cases ho'
      rw [core (Token.bracket '(' :: s) (Token.bracket ')' :: rest) hs₂
        (Or.inr (Or.inl ⟨rest, rfl⟩))]
      rw [toPostfixGo]
      simp [popToParen, postE]
    · rw [tokensAt]
      rw [if_neg h]
      simp only [List.cons_append, List.append_assoc]
      rw [core s rest (stackOk_mono (Nat.le_of_not_lt h) hs)
        (restOk_mono (Nat.le_of_not_lt h) hr)]
      simp [postE]
  | paren e ihe =>
    intro lvl s rest hs hr
    rw [tokensAt]
    simp only [List.cons_append, List.append_assoc, List.singleton_append,
      List.nil_append]
    rw [toPostfixGo]
    rw [if_pos rfl]
    have hs₂ : StackOk 1 (Token.bracket '(' :: s) := by
      intro o' ho'
      cases ho'
    rw [ihe 1 (Token.bracket '(' :: s) (Token.bracket ')' :: rest) hs₂
      (Or.inr (Or.inl ⟨rest, rfl⟩))]
    rw [toPostfixGo]
    simp [popToParen, postE]

theorem to_postfix_tokensAt (e : Expr) : to_postfix (tokensAt e 1) = postE e := by
  have h := go_tokensAt e 1 [] [] trivial (Or.inl rfl)
  simpa [ to_postfix, toPostfixGo] using h

theorem evaluateGo_postE (e : Expr) :
    ∀ (rest : List Token) (stack : List ℚ),
      evaluateGo (postE e ++ rest) stack =
        (match evalExpr e with
          | .ok v => evaluateGo rest (v :: stack)
          | .error err => .error err) := by
  induction e with
  | num q => intro rest stack; simp [postE, evalExpr, evaluateGo]
  | binop o l r ihl ihr =>
    intro rest stack
    simp only [postE, evalExpr, List.append_assoc, List.cons_append,
      List.singleton_append, List.nil_append]
    rw [ihl]
    cases hl : evalExpr l with
    | error err => rfl
    | ok vl =>
      dsimp only
      rw [ihr]
      cases hr : evalExpr r with
      | error err => rfl
      | ok vr =>
        dsimp only
        rw [evaluateGo]
  | paren e ihe =>
    intro rest stack
    simp only [postE, evalExpr]
    exact ihe rest stack

theorem evaluate_postE (e : Expr) : evaluate (postE e) = evalExpr e := by
  have h := evaluateGo_postE e [] []
  rw [List.append_nil] at h
  rw [evaluate, h]
  cases he : evalExpr e with
  | error err => rfl
  | ok v => rfl

theorem toPostfixGo_length (ts : List Token) :
    ∀ stack : List Token,
      (toPostfixGo ts stack).length ≤ ts.length + stack.length := by
  induction ts with
  | nil => intro stack; simp [toPostfixGo]
  | cons t ts ih =>
    intro stack
    cases t with
    | number n =>
      have := ih stack
      simp only [toPostfixGo, List.length_cons]
      omega
    | op o =>
      have h1 := ih (Token.op o :: (popGE o stack).2)
      have h2 := popGE_length o stack
      simp only [toPostfixGo, List.length_append, List.length_cons] at h1 ⊢
      omega
    | bracket c =>
      by_cases h : c = '('
      · subst h
        have := ih (Token.bracket '(' :: stack)
        rw [toPostfixGo, if_pos rfl]
        simp only [List.length_cons] at this ⊢
        omega
      · by_cases h' : c = ')'
        · subst h'
          have h1 := ih (popToParen stack).2
          have h2 := popToParen_length stack
          rw [toPostfixGo, if_neg (by decide), if_pos rfl]
          simp only [List.length_append, List.length_cons] at h1 ⊢
          omega
        · have := ih stack
          rw [toPostfixGo, if_neg h, if_neg h']
          simp only [List.length_cons] at this ⊢
          omega

theorem apply_error_divByZero (o : Operator) (l r : ℚ) (e : Error)
    (h : o.apply l r = .error e) : e = .divisionByZero := by
  cases o with
  | add => simp [Operator.apply] at h
  | subtract => simp [Operator.apply] at h
  | multiply => simp [Operator.apply] at h
  | divide =>
    simp only [Operator.apply] at h
    by_cases hr : r = 0
    · rw [if_pos hr] at h
      injection h with h'
      exact h'.symm
    · rw [if_neg hr] at h
      simp at h

theorem evaluateGo_trichotomy (ts : List Token) :
    ∀ stack : List ℚ,
      (∃ v, evaluateGo ts stack = .ok v) ∨
        evaluateGo ts stack = .error .invalidExpression ∨
        evaluateGo ts stack = .error .divisionByZero := by
  induction ts with
  | nil =>
    intro stack
    match stack with
    | [] => exact Or.inr (Or.inl rfl)
    | [v] => exact Or.inl ⟨v, rfl⟩
    | v :: w :: rest => exact Or.inr (Or.inl rfl)
  | cons t ts ih =>
    intro stack
    cases t with
    | number n => exact ih (n :: stack)
    | op o =>
      match stack with
      | [] => exact Or.inr (Or.inl rfl)
      | [v] => exact Or.inr (Or.inl rfl)
      | right :: left :: rest =>
        cases happ : o.apply left right with
        | ok v =>
          have := ih (v :: rest)
          simpa [evaluateGo, happ] using this
        | error e =>
          have he := apply_error_divByZero o left right e happ
          subst he
          exact Or.inr (Or.inr (by simp [evaluateGo, happ]))
    | bracket c => exact Or.inr (Or.inl rfl)

theorem parseGo_mismatched_iff :
    ∀ (n : ℕ) (cs parens : List Char), cs.length ≤ n → (∀ p ∈ parens, p = '(') →
      (parseGo cs parens = .error .mismatchedParens ↔
        parenScan cs parens.length = true) := by
  intro n
  induction n with
  | zero =>
    intro cs parens h hpar
    have hnil : cs = [] := List.length_eq_zero.mp (Nat.le_zero.mp h)
    subst hnil
    cases parens with
    | nil => simp [parseGo, parenScan]
    | cons p ps => simp [parseGo, parenScan]
  | succ n ih =>
    intro cs parens h hpar
    cases cs with
    | nil =>
      cases parens with
      | nil => simp [parseGo, parenScan]
      | cons p ps => simp [parseGo, parenScan]
    | cons c cs =>
      have hlen : cs.length ≤ n := by simpa using h
      have hdrop : (cs.dropWhile isNumChar).length ≤ n :=
        le_trans (List.dropWhile_suffix isNumChar).length_le hlen
      rw [parseGo.eq_def, parenScan.eq_def]
      by_cases hd : c.isDigit
      · simp only [hd, if_pos rfl, if_true]
        cases hpr : parseNumRun (c :: cs.takeWhile isNumChar) with
        | none => simp [Option.elim]
        | some q =>
          simp only [Option.elim, consTok_error_iff]
          exact ih (cs.dropWhile isNumChar) parens hdrop hpar
      · by_cases hop : c = '('
        · subst hop
          have hpar' : ∀ p ∈ '(' :: parens, p = '(' := by
            intro p hp
            rcases List.mem_cons.mp hp with h' | h'
            · exact h'
            · exact hpar p h'
          simpa [consTok_error_iff] using ih cs ('(' :: parens) hlen hpar'
        · by_cases hcp : c = ')'
          · subst hcp
            cases parens with
            | nil => simp [Option.elim, parenScan]
            | cons p ps =>
              have hp : p = '(' := hpar p (List.mem_cons_self _ _)
              subst hp
              have hpar' : ∀ q ∈ ps, q = '(' :=
                fun q hq => hpar q (List.mem_cons_of_mem _ hq)
              simpa [Option.elim, consTok_error_iff] using ih cs ps hlen hpar'
          · by_cases hplus : c = '+'
            · subst hplus
              simpa [consTok_error_iff] using ih cs parens hlen hpar
            · by_cases hminus : c = '-'
              · subst hminus
                simpa [consTok_error_iff] using ih cs parens hlen hpar
              · by_cases hmul : c = '*'
                · subst hmul
                  simpa [consTok_error_iff] using ih cs parens hlen hpar
                · by_cases hdiv : c = '/'
                  · subst hdiv
                    simpa [consTok_error_iff] using ih cs parens hlen hpar
                  · by_cases hws : c = ' ' ∨ c = '\t' ∨ c = '\n'
                    · rcases hws with hc | hc | hc <;> subst hc <;>
                        simpa [consTok_error_iff] using ih cs parens hlen hpar
                    · simp [hd, hop, hcp, hplus, hminus, hmul, hdiv, hws]

theorem parseGo_space (cs parens : List Char) :
    parseGo (' ' :: cs) parens = parseGo cs parens := by
  rw [parseGo.eq_def]; simp

theorem parseGo_tab (cs parens : List Char) :
    parseGo ('\t' :: cs) parens = parseGo cs parens := by
  rw [parseGo.eq_def]; simp

theorem parseGo_newline (cs parens : List Char) :
    parseGo ('\n' :: cs) parens = parseGo cs parens := by
  rw [parseGo.eq_def]; simp

theorem parseGo_digit_run (c : Char) (run rest parens : List Char)
    (hc : c.isDigit = true) (hrun : ∀ d ∈ run, isNumChar d = true)
    (hrest : rest = [] ∨ ∃ r rs, rest = r :: rs ∧ isNumChar r = false) :
    parseGo (c :: (run ++ rest)) parens =
      (parseNumRun (c :: run)).elim (.error (.badToken c))
        (fun q => consTok (.number q) (parseGo rest parens)) := by
  have htake : (run ++ rest).takeWhile isNumChar = run := by
    rw [List.takeWhile_append_of_pos hrun]
    rcases hrest with h | ⟨r, rs, hr, hnum⟩
    · simp [h]
    · subst hr
      rw [List.takeWhile_cons, hnum]
      simp
  have hdrop : (run ++ rest).dropWhile isNumChar = rest := by
    rw [List.dropWhile_append_of_pos hrun]
    rcases hrest with h | ⟨r, rs, hr, hnum⟩
    · simp [h]
    · subst hr
      rw [List.dropWhile_cons, hnum]
      simp
  rw [parseGo.eq_def]
  simp only [hc, if_pos rfl, if_true, htake, hdrop]

/-- Claim C1: for every valid infix expression (a rendering of an
expression tree with standard precedence and left-to-right grouping at
equal precedence), running the pipeline `to_postfix` then `evaluate`
returns the mathematically correct value of the tree; in particular
`calculate "2 + 3 * 4" = 14`, `calculate "(2 + 3) * 4" = 20`, and
`calculate "10 - 6 / 2" = 7`. -/
theorem calculate_valid_infix_correct :
    (∀ e : Expr, evaluate ( to_postfix (tokensAt e 1)) = evalExpr e) ∧
    calculate "2 + 3 * 4" = .ok 14 ∧
    calculate "(2 + 3) * 4" = .ok 20 ∧
    calculate "10 - 6 / 2" = .ok 7 := by
  refine ⟨fun e => ?_, ?_, ?_, ?_⟩
  · rw [to_postfix_tokensAt, evaluate_postE]
  · rw [calculate_eq_fueled]; with_unfolding_all rfl
  · rw [calculate_eq_fueled]; with_unfolding_all rfl
  · rw [calculate_eq_fueled]; with_unfolding_all rfl

/-- Claim C2: `Operator::apply` fails with `DivisionByZero` iff the
operator is `Divide` and the right operand is exactly zero, and
otherwise returns `Ok`; the failure propagates through `evaluate` to
`calculate`: `calculate "5 / 0"` and `calculate "10 / (2 - 2)"` both
fail with `DivisionByZero`. -/
theorem apply_division_by_zero_iff :
    (∀ (o : Operator) (l r : ℚ),
        o.apply l r = .error .divisionByZero ↔ (o = .divide ∧ r = 0)) ∧
    (∀ (o : Operator) (l r : ℚ),
        (o = .divide ∧ r = 0) ∨ ∃ v, o.apply l r = .ok v) ∧
    calculate "5 / 0" = .error .divisionByZero ∧
    calculate "10 / (2 - 2)" = .error .divisionByZero := by
  refine ⟨fun o l r => ?_, fun o l r => ?_, ?_, ?_⟩
  · cases o with
    | add => simp [Operator.apply]
    | subtract => simp [Operator.apply]
    | multiply => simp [Operator.apply]
    | divide =>
      by_cases hr : r = 0
      · simp [Operator.apply, hr]
      · simp [Operator.apply, hr]
  · cases o with
    | add => exact Or.inr ⟨_, rfl⟩
    | subtract => exact Or.inr ⟨_, rfl⟩
    | multiply => exact Or.inr ⟨_, rfl⟩
    | divide =>
      by_cases hr : r = 0
      · exact Or.inl ⟨rfl, hr⟩
      · exact Or.inr ⟨_, by rw [Operator.apply, if_neg hr]⟩
  · rw [calculate_eq_fueled]; with_unfolding_all rfl
  · rw [calculate_eq_fueled]; with_unfolding_all rfl

/-- Claim C3, counterexample: the claim says every position whose
character is an ASCII digit **or `'.'`** starts a greedy
digits-and-dot run that becomes a `Number` token when the run is a
valid 64-bit float.  The run `".5"` is a valid float (value `1/2`), yet
`parse ".5"` fails with `BadToken('.')`: a `'.'` does not trigger the
number scanner (the source's match arm is `'0'..='9'` only). -/
theorem dot_run_counterexample :
    parseNumRun ['.', '5'] = some (1/2) ∧
    parse ".5" = .error (.badToken '.') := by
  constructor
  · with_unfolding_all rfl
  · unfold parse
    rw [parseGo_eq_fueled 3 _ _ (by decide)]
    with_unfolding_all rfl

/-- Claim C3, amended: during `parse`, every position whose character
is an ASCII **digit** starts a greedy maximal run of digits and `'.'`
characters, parsed as a 64-bit float into a `Number` token, with
`BadToken` carrying the triggering (first) character when the run is
not a valid number (e.g. `"1.2.3"`); a position whose character is
`'.'` instead fails immediately with `BadToken('.')` via the
catch-all arm. -/
theorem digit_run_tokenization :
    (∀ (c : Char) (run rest parens : List Char),
        c.isDigit = true → (∀ d ∈ run, isNumChar d = true) →
        (rest = [] ∨ ∃ r rs, rest = r :: rs ∧ isNumChar r = false) →
        parseGo (c :: (run ++ rest)) parens =
          (parseNumRun (c :: run)).elim (.error (.badToken c))
            (fun q => consTok (.number q) (parseGo rest parens))) ∧
    (∀ cs parens : List Char, parseGo ('.' :: cs) parens = .error (.badToken '.')) ∧
    parse "1.2.3" = .error (.badToken '1') ∧
    calculate "12.5 + 1" = .ok (27/2) := by
  refine ⟨parseGo_digit_run, fun cs parens => ?_, ?_, ?_⟩
  · rw [parseGo.eq_def]; simp
  · unfold parse
    rw [parseGo_eq_fueled 6 _ _ (by decide)]
    with_unfolding_all rfl
  · rw [calculate_eq_fueled]; with_unfolding_all rfl

/-- Witness for `digit_run_tokenization`: instantiating the amended
run rule at the digit `'9'` followed by the invalid run tail `"..1"`
yields `BadToken('9')`. -/
theorem digit_run_tokenization_witness :
    parseGo ['9', '.', '.', '1'] [] = .error (.badToken '9') := by
  have h := digit_run_tokenization.1 '9' ['.', '.', '1'] [] []
    (by decide) (by decide) (Or.inl rfl)
  rw [List.append_nil] at h
  rw [h, parseNumRun, if_neg (by decide)]
  rfl

/-- Claim C4: `parse` fails with `MismatchedParens` exactly when the
scan meets a `')'` with the paren stack empty (the popped entry, always
a pushed `'('`, never mismatches) or finishes with the stack non-empty,
as characterized by the depth scan `parenScan`; hence
`calculate "(2 + 3"` and `calculate "2 + 3)"` both fail with
`MismatchedParens`. -/
theorem mismatched_parens_iff :
    (∀ s : String,
        parse s = .error .mismatchedParens ↔ parenScan s.data 0 = true) ∧
    calculate "(2 + 3" = .error .mismatchedParens ∧
    calculate "2 + 3)" = .error .mismatchedParens := by
  refine ⟨fun s => ?_, ?_, ?_⟩
  · have h := parseGo_mismatched_iff s.data.length s.data [] (le_refl _)
      (fun p hp => absurd hp (List.not_mem_nil p))
    simpa [parse] using h
  · rw [calculate_eq_fueled]; with_unfolding_all rfl
  · rw [calculate_eq_fueled]; with_unfolding_all rfl

/-- Claim C5: `evaluate` fails with `InvalidExpression` exactly when an
operator arrives with fewer than two stacked operands, a bracket token
appears in the postfix sequence, or the final stack does not hold
exactly one value (so `calculate "" ` fails with `InvalidExpression`);
it succeeds with the single remaining value otherwise, and no error
besides `InvalidExpression` and `DivisionByZero` is possible. -/
theorem evaluate_invalid_expression_cases :
    (∀ (o : Operator) (ts : List Token),
        evaluateGo (Token.op o :: ts) [] = .error .invalidExpression) ∧
    (∀ (o : Operator) (ts : List Token) (v : ℚ),
        evaluateGo (Token.op o :: ts) [v] = .error .invalidExpression) ∧
    (∀ (c : Char) (ts : List Token) (stack : List ℚ),
        evaluateGo (Token.bracket c :: ts) stack = .error .invalidExpression) ∧
    evaluateGo [] [] = .error .invalidExpression ∧
    (∀ v : ℚ, evaluateGo [] [v] = .ok v) ∧
    (∀ (v w : ℚ) (stack : List ℚ),
        evaluateGo [] (v :: w :: stack) = .error .invalidExpression) ∧
    (∀ ts : List Token,
        (∃ v, evaluate ts = .ok v) ∨
          evaluate ts = .error .invalidExpression ∨
          evaluate ts = .error .divisionByZero) ∧
    calculate "" = .error .invalidExpression := by
  refine ⟨fun o ts => rfl, fun o ts v => rfl, fun c ts stack => rfl, rfl,
    fun v => rfl, fun v w stack => rfl, fun ts => evaluateGo_trichotomy ts [], ?_⟩
  rw [calculate_eq_fueled]; with_unfolding_all rfl

/-- Claim C6: `to_postfix` is total with no failure path: on every
token sequence, including malformed ones, it returns an output no
longer than its input (plus the stack it flushes); an unmatched `')'`
that empties the operator stack merely yields a malformed postfix
sequence, never a crash (the source's `unwrap`s are guarded by the
preceding `last()`/emptiness checks, mirrored here by total
functions). -/
theorem to_postfix_total :
    (∀ ts stack : List Token,
        (toPostfixGo ts stack).length ≤ ts.length + stack.length) ∧
    (∀ ts : List Token, ( to_postfix ts).length ≤ ts.length) ∧
    to_postfix [Token.bracket ')'] = [] ∧
    to_postfix [Token.bracket ')', Token.number 1, Token.op Operator.add] =
      [Token.number 1, Token.op Operator.add] := by
  refine ⟨toPostfixGo_length, fun ts => ?_, rfl, rfl⟩
  have h := toPostfixGo_length ts []
  simpa [ to_postfix] using h

/-- Claim C7: when `to_postfix` reads an operator `op`, it pops to the
output exactly the maximal top run of stacked operators whose
precedence (classes: `{Add, Subtract} = 1`, `{Multiply, Divide} = 2`)
is `≥ op`'s, then pushes `op`; consequently equal-precedence operators
group left-associatively: `a - b - c` converts to `a b - c -`. -/
theorem shunting_yard_pop_rule :
    (Operator.add.precedence = 1 ∧ Operator.subtract.precedence = 1 ∧
      Operator.multiply.precedence = 2 ∧ Operator.divide.precedence = 2) ∧
    (∀ (o : Operator) (ts stack : List Token),
        toPostfixGo (Token.op o :: ts) stack =
          stack.takeWhile (opGE o) ++
            toPostfixGo ts (Token.op o :: stack.dropWhile (opGE o))) ∧
    (∀ a b c : ℚ,
        to_postfix [Token.number a, Token.op .subtract, Token.number b,
            Token.op .subtract, Token.number c] =
          [Token.number a, Token.number b, Token.op .subtract,
            Token.number c, Token.op .subtract]) := by
  refine ⟨⟨rfl, rfl, rfl, rfl⟩, fun o ts stack => ?_, fun a b c => rfl⟩
  rw [toPostfixGo, popGE_take_drop]

/-- Claim C8, counterexample: the claim says whitespace variation never
changes the result, but inserting a space inside the numeric literal
`12` splits it into two tokens and changes `Ok(12)` into
`InvalidExpression`. -/
theorem whitespace_split_counterexample :
    calculate "12" = .ok 12 ∧ calculate "1 2" = .error .invalidExpression := by
  constructor
  · rw [calculate_eq_fueled]; with_unfolding_all rfl
  · rw [calculate_eq_fueled]; with_unfolding_all rfl

/-- Claim C8, amended: space, tab and newline are skipped by the
tokenizer and produce no tokens, so whitespace variation that does not
split a numeric literal never changes the result: `calculate "2+3"`,
`calculate "  2   +   3  "` and `calculate "\t2\n+\t3\n"` all return
`5`. -/
theorem whitespace_skip_amended :
    (∀ cs parens : List Char, parseGo (' ' :: cs) parens = parseGo cs parens) ∧
    (∀ cs parens : List Char, parseGo ('\t' :: cs) parens = parseGo cs parens) ∧
    (∀ cs parens : List Char, parseGo ('\n' :: cs) parens = parseGo cs parens) ∧
    calculate "2+3" = .ok 5 ∧
    calculate "  2   +   3  " = .ok 5 ∧
    calculate "\t2\n+\t3\n" = .ok 5 := by
  refine ⟨parseGo_space, parseGo_tab, parseGo_newline, ?_, ?_, ?_⟩
  · rw [calculate_eq_fueled]; with_unfolding_all rfl
  · rw [calculate_eq_fueled]; with_unfolding_all rfl
  · rw [calculate_eq_fueled]; with_unfolding_all rfl

/-- Claim C9: every scanned character that is not an ASCII digit, `'.'`,
a paren, an operator, or whitespace makes `parse` fail with `BadToken`
carrying that character; in particular `calculate "2 + @"` fails with
`BadToken('@')`. -/
theorem bad_token_catch_all :
    (∀ (c : Char) (cs parens : List Char), c.isDigit = false →
        c ∉ (['.', '(', ')', '+', '-', '*', '/', ' ', '\t', '\n'] : List Char) →
        parseGo (c :: cs) parens = .error (.badToken c)) ∧
    calculate "2 + @" = .error (.badToken '@') := by
  constructor
  · intro c cs parens hd hm
    simp only [List.mem_cons, not_or] at hm
    obtain ⟨h1, h2, h3, h4, h5, h6, h7, h8, h9, h10⟩ := hm
    rw [parseGo.eq_def]
    simp [hd, h2, h3, h4, h5, h6, h7, h8, h9]
    simp at h10
    simp [h10]
  · rw [calculate_eq_fueled]; with_unfolding_all rfl

/-- Witness for `bad_token_catch_all`: the unknown character `'@'`. -/
theorem bad_token_catch_all_witness :
    parseGo ['@'] [] = .error (.badToken '@') :=
  bad_token_catch_all.1 '@' [] [] (by decide) (by decide)

/-- Claim C10: there is no unary minus: `'-'` always tokenizes as the
binary `Subtract` operator, so `calculate "-5"` does not return `-5`
but fails with `InvalidExpression` (the operator finds fewer than two
operands during evaluation). -/
theorem no_unary_minus :
    (∀ cs parens : List Char,
        parseGo ('-' :: cs) parens =
          consTok (Token.op Operator.subtract) (parseGo cs parens)) ∧
    calculate "-5" = .error .invalidExpression ∧
    calculate "-5" ≠ .ok (-5) := by
  refine ⟨fun cs parens => ?_, ?_, ?_⟩
  · rw [parseGo.eq_def]; simp
  · rw [calculate_eq_fueled]; with_unfolding_all rfl
  · rw [calculate_eq_fueled]
    intro h
    have : Except.error Error.invalidExpression = Except.ok (-5 : ℚ) := by
      rw [← h]
      with_unfolding_all rfl
    cases this
